import Mathlib

/-!
Verification development for the PPTAS backend.

This file gives a shallow embedding of the core retrieval and persistence
logic of the repository:

* `src/backend/src/services/vector_store_service.py`
  (`_split_text_for_embedding`, `store_document_slides`,
  `search_similar_slides`, `search_by_keyword`), and
* `src/backend/src/services/persistence_service.py`
  (`update_global_analysis`, `upsert_page_analysis`, `upsert_document`), and
* the ingestion flow of `src/backend/src/app.py` (`expand_ppt`).

Python strings are modelled as `List Char`, Python floats as `ℚ`
(all score constants are decimal literals, so their exact arithmetic
agrees with the comparisons the claims are about), Python `str.count`
as non-overlapping occurrence counting, and SQLite tables as lists of
row structures.  Functions that the Python code wraps in `try/except`
are modelled with `Except` parameters for the failure-prone backends.
-/

/-! ## String utilities mirroring the Python primitives -/

/-- Lower-case a string character by character (Python `str.lower`). -/
def toLowerL (s : List Char) : List Char := s.map Char.toLower

/-- Strip leading and trailing whitespace (Python `str.strip()`). -/
def pyStrip (s : List Char) : List Char :=
  ((s.dropWhile Char.isWhitespace).reverse.dropWhile Char.isWhitespace).reverse

/-- Worker for `pySplitWs`: accumulate the current word (reversed) while
scanning; whitespace flushes the word.  Mirrors Python `str.split()`
(split on whitespace runs, no empty tokens). -/
def splitWsGo : List Char → List Char → List (List Char)
  | [], acc => if acc = [] then [] else [acc.reverse]
  | c :: t, acc =>
      if c.isWhitespace then
        (if acc = [] then splitWsGo t [] else acc.reverse :: splitWsGo t [])
      else splitWsGo t (c :: acc)

/-- Python `str.split()` with no separator argument. -/
def pySplitWs (s : List Char) : List (List Char) := splitWsGo s []

/-- Python's substring test `needle in hay`. -/
def pyIn (needle : List Char) : List Char → Bool
  | [] => needle.isPrefixOf []
  | c :: t => needle.isPrefixOf (c :: t) || pyIn needle t

/-- Worker for `countOccs`, structured with explicit fuel so it computes
by structural recursion: scan left to right, and on a match skip past the
matched text, exactly like Python `str.count`.  One unit of fuel is spent
per step, and each step consumes at least one character, so fuel equal to
the text length suffices. -/
def countOccsFuel (needle : List Char) : Nat → List Char → Nat
  | 0, _ => 0
  | _ + 1, [] => 0
  | f + 1, c :: t =>
      if needle.isPrefixOf (c :: t) then
        1 + countOccsFuel needle f (t.drop (needle.length - 1))
      else countOccsFuel needle f t

/-- Occurrence scan at adequate fuel. -/
def countOccsGo (needle hay : List Char) : Nat :=
  countOccsFuel needle hay.length hay

/-- Python `hay.count(needle)`: non-overlapping occurrences; an empty
needle counts `len(hay) + 1` times, as in Python. -/
def countOccs (needle hay : List Char) : Nat :=
  if needle = [] then hay.length + 1 else countOccsGo needle hay

/-! ### Lemmas about the string utilities -/

theorem isPrefixOf_iff_exists : ∀ (n h : List Char),
    n.isPrefixOf h = true ↔ ∃ t, h = n ++ t := by
  intro n
  induction n with
  | nil => intro h; simp [List.isPrefixOf]
  | cons a n ih =>
      intro h
      cases h with
      | nil => simp [List.isPrefixOf]
      | cons b t =>
          simp only [List.isPrefixOf, Bool.and_eq_true, beq_iff_eq, ih,
            List.cons_append, List.cons.injEq]
          constructor
          · rintro ⟨rfl, u, rfl⟩; exact ⟨u, rfl, rfl⟩
          · rintro ⟨u, rfl, rfl⟩; exact ⟨rfl, u, rfl⟩

theorem pyIn_iff_exists (n : List Char) : ∀ (h : List Char),
    pyIn n h = true ↔ ∃ s t, h = s ++ n ++ t := by
  intro h
  induction h with
  | nil =>
      simp only [pyIn, isPrefixOf_iff_exists]
      constructor
      · rintro ⟨t, ht⟩; exact ⟨[], t, by simpa using ht⟩
      · rintro ⟨s, t, hst⟩
        have hs : s = [] := by
          cases s with
          | nil => rfl
          | cons a u => simp at hst
        subst hs; exact ⟨t, by simpa using hst⟩
  | cons c t ih =>
      simp only [pyIn, Bool.or_eq_true, isPrefixOf_iff_exists, ih]
      constructor
      · rintro (⟨u, hu⟩ | ⟨s, u, hsu⟩)
        · exact ⟨[], u, by simpa using hu⟩
        · exact ⟨c :: s, u, by simp [hsu]⟩
      · rintro ⟨s, u, hsu⟩
        cases s with
        | nil => exact Or.inl ⟨u, by simpa using hsu⟩
        | cons a s' =>
            right
            refine ⟨s', u, ?_⟩
            have : c = a ∧ t = s' ++ n ++ u := by
              simpa using hsu
            simp [this.2]

theorem countOccsFuel_pos (n : List Char) (hn : n ≠ []) :
    ∀ (f : Nat) (s t : List Char), (s ++ n ++ t).length ≤ f →
      0 < countOccsFuel n f (s ++ n ++ t) := by
  intro f
  induction f with
  | zero =>
      intro s t hf
      exfalso
      cases n with
      | nil => exact hn rfl
      | cons a u => simp [List.length_append] at hf
  | succ f ih =>
      intro s t hf
      cases s with
      | nil =>
          have hpre : n.isPrefixOf (n ++ t) = true :=
            (isPrefixOf_iff_exists n (n ++ t)).2 ⟨t, rfl⟩
          cases hh : (n ++ t) with
          | nil =>
              exfalso
              cases n with
              | nil => exact hn rfl
              | cons a u => simp at hh
          | cons c u =>
              have : countOccsFuel n (f + 1) (c :: u) =
                  1 + countOccsFuel n f (u.drop (n.length - 1)) := by
                rw [countOccsFuel]
                rw [hh] at hpre
                simp [hpre]
              simp only [List.nil_append] at hh ⊢
              rw [hh, this]
              omega
      | cons c s' =>
          show 0 < countOccsFuel n (f + 1) (c :: (s' ++ n ++ t))
          rw [countOccsFuel]
          by_cases hpre : n.isPrefixOf (c :: (s' ++ n ++ t)) = true
          · rw [if_pos hpre]; omega
          · rw [if_neg hpre]
            have hlen : (s' ++ n ++ t).length ≤ f := by
              simp only [List.length_append, List.length_cons] at hf ⊢
              omega
            simpa [List.append_assoc] using ih s' t hlen

theorem countOccsGo_pos (n : List Char) (hn : n ≠ [])
    (s t : List Char) : 0 < countOccsGo n (s ++ n ++ t) :=
  countOccsFuel_pos n hn (s ++ n ++ t).length s t le_rfl

theorem countOccs_pos_of_exists (n h : List Char)
    (hex : ∃ s t, h = s ++ n ++ t) : 0 < countOccs n h := by
  rcases hex with ⟨s, t, rfl⟩
  by_cases hn : n = []
  · simp [countOccs, hn]
  · simpa [countOccs, hn] using countOccsGo_pos n hn s t

theorem countOccs_pos_of_pyIn (n h : List Char) (hin : pyIn n h = true) :
    0 < countOccs n h :=
  countOccs_pos_of_exists n h ((pyIn_iff_exists n h).1 hin)

theorem mem_splitWsGo : ∀ (s acc x : List Char),
    x ∈ splitWsGo s acc → ∃ u v, acc.reverse ++ s = u ++ x ++ v := by
  intro s
  induction s with
  | nil =>
      intro acc x hx
      by_cases hacc : acc = []
      · simp [splitWsGo, hacc] at hx
      · simp only [splitWsGo, if_neg hacc, List.mem_singleton] at hx
        exact ⟨[], [], by simp [hx]⟩
  | cons c t ih =>
      intro acc x hx
      simp only [splitWsGo] at hx
      by_cases hws : c.isWhitespace
      · simp only [if_pos hws] at hx
        by_cases hacc : acc = []
        · simp only [if_pos hacc] at hx
          rcases ih [] x hx with ⟨u, v, huv⟩
          exact ⟨acc.reverse ++ [c] ++ u, v, by
            simp only [List.reverse_nil, List.nil_append] at huv
            simp [hacc, huv]⟩
        · simp only [if_neg hacc, List.mem_cons] at hx
          rcases hx with rfl | hx
          · exact ⟨[], c :: t, by rfl⟩
          · rcases ih [] x hx with ⟨u, v, huv⟩
            exact ⟨acc.reverse ++ [c] ++ u, v, by
              simp only [List.reverse_nil, List.nil_append] at huv
              simp [huv]⟩
      · simp only [if_neg hws] at hx
        rcases ih (c :: acc) x hx with ⟨u, v, huv⟩
        exact ⟨u, v, by simpa using huv⟩

theorem mem_pySplitWs_exists (s x : List Char) (hx : x ∈ pySplitWs s) :
    ∃ u v, s = u ++ x ++ v := by
  have := mem_splitWsGo s [] x hx
  simpa using this

/-! ## Scoring model of `search_similar_slides` (vector_store_service.py 404-460)

`query_lower = query.lower().strip()`, `query_keywords = set(query_lower.split())`
plus the full query itself when its length is at least 2.  The set membership
of the full query is irrelevant to the boost because the loop skips any
keyword equal to `query_lower`, so the boost depends only on the deduplicated
split tokens different from the full query. -/

/-- Explicit minimum on rationals (kernel-reducible `if`). -/
def pyMin (a b : ℚ) : ℚ := if a ≤ b then a else b

/-- Explicit maximum on rationals (kernel-reducible `if`). -/
def pyMax (a b : ℚ) : ℚ := if a ≤ b then b else a

/-- Bridge from the executable minimum to the order-theoretic one. -/
theorem pyMin_eq_min (a b : ℚ) : pyMin a b = min a b := by
  by_cases h : a ≤ b
  · simp [pyMin, min_def, h]
  · simp [pyMin, min_def, h]

/-- Bridge from the executable maximum to the order-theoretic one. -/
theorem pyMax_eq_max (a b : ℚ) : pyMax a b = max a b := by
  by_cases h : a ≤ b
  · simp [pyMax, max_def, h]
  · simp [pyMax, max_def, h]

/-- Deduplicated query tokens that the keyword loop actually scores:
members of `set(query_lower.split())` different from `query_lower` itself
and of length at least 2 (`if keyword == query_lower: continue` /
`if len(keyword) >= 2:`). -/
def relTokens (qL : List Char) : List (List Char) :=
  ((pySplitWs qL).dedup).filter (fun kw => decide (kw ≠ qL ∧ 2 ≤ kw.length))

/-- The loop-scored tokens that actually occur in the chunk text
(`count = content_lower.count(keyword)` / `if count > 0:`). -/
def matchedTokens (qL cl : List Char) : List (List Char) :=
  (relTokens qL).filter (fun kw => decide (0 < countOccs kw cl))

/-- Per-token boost `min(0.3, 0.2 + (count - 1) * 0.05)`. -/
def tokenTermQ (cl kw : List Char) : ℚ :=
  pyMin 0.3 (0.2 + ((countOccs kw cl : ℚ) - 1) * 0.05)

/-- Full keyword-match boost (`keyword_match_score` in the source): full
query match adds `min(0.6, 0.4 + (count-1)*0.1)`, each matched token adds
`min(0.3, 0.2 + (count-1)*0.05)`, two or more distinct matches add `0.15`,
and zero matches replace the score with `-0.1`. -/
def keywordBoost (qL cl : List Char) : ℚ :=
  let fullHit := pyIn qL cl
  let fullPart : ℚ :=
    if fullHit then pyMin 0.6 (0.4 + ((countOccs qL cl : ℚ) - 1) * 0.1) else 0
  let mts := matchedTokens qL cl
  let tokenPart : ℚ := (mts.map (tokenTermQ cl)).sum
  let matched : Nat := (if fullHit then 1 else 0) + mts.length
  if matched = 0 then -0.1
  else fullPart + tokenPart + (if 2 ≤ matched then 0.15 else 0)

/-- ChromaDB cosine-distance to similarity conversion with clamping:
`similarity = max(0.0, min(1.0, 1.0 - distance / 2.0))`. -/
def similarityOf (d : ℚ) : ℚ := pyMax 0 (pyMin 1 (1 - d / 2))

/-- Combined score `final_similarity = max(0.0, min(1.0, similarity +
keyword_match_score))` for a chunk with lower-cased text `cl` at semantic
distance `d`. -/
def finalScoreOf (qL cl : List Char) (d : ℚ) : ℚ :=
  pyMax 0 (pyMin 1 (similarityOf d + keywordBoost qL cl))

/-! ## Result records and the two search paths -/

/-- A stored chunk as returned by the vector backend: text plus the
metadata fields the search logic reads. -/
structure Hit where
  content : List Char
  fileName : String
  pageNum : Nat
  deriving DecidableEq, Repr

/-- A chunk row of the vector store as seen by `search_by_keyword`
(via `vectorstore.get()`). -/
structure KChunk where
  text : List Char
  fileName : String
  pageNum : Nat
  deriving DecidableEq, Repr

/-- One entry of a result list of `search_similar_slides` /
`search_by_keyword`.  `method` is `some "keyword"` exactly on the lexical
path (`"method": "keyword"` in the source); semantic results carry no
`method` key.  `matchCount` is only meaningful on the lexical path. -/
structure REntry where
  content : List Char
  fileName : String
  pageNum : Nat
  score : ℚ
  distance : ℚ
  semantic : ℚ
  kwBoost : ℚ
  boosted : Bool
  method : Option String
  matchCount : Nat
  deriving DecidableEq, Repr

/-- The page key used for deduplication: `(file_name, page_num)`. -/
def entryKey (e : REntry) : String × Nat := (e.fileName, e.pageNum)

/-- Generic insertion into a sorted list, for the stable sorts below. -/
def insertBy (le : α → α → Bool) (x : α) : List α → List α
  | [] => [x]
  | y :: t => if le x y then x :: y :: t else y :: insertBy le x t

/-- Insertion sort parameterized by a boolean comparison. -/
def sortBy (le : α → α → Bool) : List α → List α
  | [] => []
  | x :: t => insertBy le x (sortBy le t)

/-- Dictionary update of `page_best_results`: replace the entry for the
same `(file_name, page_num)` key when the new score is strictly higher,
insert when the key is new, keep the old entry otherwise. -/
def upsertBest : List REntry → REntry → List REntry
  | [], e => [e]
  | e0 :: t, e =>
      if entryKey e = entryKey e0 then
        (if e0.score < e.score then e :: t else e0 :: t)
      else e0 :: upsertBest t e

/-- The scoring/filter/dedup loop of `search_similar_slides`
(`for doc, distance in results:`): drop chunks with semantic similarity
below `min_score`, score the rest, and keep one best entry per page. -/
def processHits (qL : List Char) (minScore : ℚ) :
    List (Hit × ℚ) → List REntry → List REntry
  | [], acc => acc
  | (h, d) :: rest, acc =>
      let sim := similarityOf d
      if sim < minScore then processHits qL minScore rest acc
      else
        let cl := toLowerL h.content
        let boost := keywordBoost qL cl
        let fs := pyMax 0 (pyMin 1 (sim + boost))
        processHits qL minScore rest
          (upsertBest acc
            { content := h.content, fileName := h.fileName,
              pageNum := h.pageNum, score := fs, distance := d,
              semantic := sim, kwBoost := boost, boosted := false,
              method := none, matchCount := 0 })

/-- Score boost for results of the caller-selected file:
`result["score"] = min(1.0, result["score"] + 0.2)`. -/
def fileBoost (fnf : Option String) (es : List REntry) : List REntry :=
  match fnf with
  | none => es
  | some fn =>
      es.map (fun e =>
        if e.fileName = fn then
          { e with score := pyMin 1 (e.score + 0.2), boosted := true }
        else e)

/-- Descending comparison on `score` used by the semantic path's final
sort (`key=lambda x: x["score"], reverse=True`). -/
def scoreDescLe (a b : REntry) : Bool := decide (b.score ≤ a.score)

/-- The success path of `search_similar_slides` after the raw vector
query returned `hits`: score, filter by `min_score`, dedup per page,
boost the selected file, sort by score descending, truncate to `top_k`. -/
def semanticSearchResults (query : List Char) (hits : List (Hit × ℚ))
    (minScore : ℚ) (fnf : Option String) (topK : Nat) : List REntry :=
  let qL := pyStrip (toLowerL query)
  let deduped := processHits qL minScore hits []
  let boosted := fileBoost fnf deduped
  (sortBy scoreDescLe boosted).take topK

/-- Descending lexicographic comparison on `(score, match_count)` used by
`search_by_keyword`. -/
def kwDescLe (a b : REntry) : Bool :=
  decide (b.score < a.score ∨ (b.score = a.score ∧ b.matchCount ≤ a.matchCount))

/-- Embedding of `search_by_keyword` (vector_store_service.py 580-633)
over the fetched chunk rows: lexical substring scan, score
`min(match_count / 10, 1.0)`, sort by `(score, match_count)` descending,
truncate to `top_k`.  No deduplication per page happens on this path. -/
def searchByKeyword (query : List Char) (topK : Nat) (fnf : Option String)
    (chunks : List KChunk) : List REntry :=
  let qL := toLowerL query
  let results := chunks.filterMap (fun c =>
    if (match fnf with
        | some fn => decide (c.fileName ≠ fn)
        | none => false) = true then none
    else
      let tl := toLowerL c.text
      if pyIn qL tl then
        let mc := countOccs qL tl
        some { content := c.text, fileName := c.fileName,
               pageNum := c.pageNum, score := pyMin ((mc : ℚ) / 10) 1,
               distance := 0, semantic := 0, kwBoost := 0, boosted := false,
               method := some "keyword", matchCount := mc }
      else none)
  (sortBy kwDescLe results).take topK

/-- The `try/except` wrapper of `search_by_keyword`: a failing
`vectorstore.get()` yields `[]` instead of an error. -/
def searchByKeywordSafe (query : List Char) (topK : Nat)
    (fnf : Option String) (store : Except String (List KChunk)) :
    List REntry :=
  match store with
  | .error _ => []
  | .ok chunks => searchByKeyword query topK fnf chunks

/-- Embedding of `search_similar_slides` including its failure handling:
when the vector backend raises, the exception is caught inside the method
and the keyword fallback runs (both the 5xx branch and the generic branch
call `search_by_keyword` with the same arguments and return `[]` when it
yields nothing); no exception propagates to the caller. -/
def searchSimilarSlides (query : List Char) (topK : Nat)
    (fnf : Option String) (minScore : ℚ)
    (backend : Except String (List (Hit × ℚ)))
    (store : Except String (List KChunk)) : List REntry :=
  match backend with
  | .ok hits => semanticSearchResults query hits minScore fnf topK
  | .error _ => searchByKeywordSafe query topK fnf store

/-! ## Persistence model (persistence_service.py)

The `documents` and `page_analysis` SQLite tables are modelled as lists of
rows; SQL `UPDATE ... WHERE` becomes a map over matching rows. -/

/-- A row of the `documents` table. -/
structure DocRow where
  docId : String
  fileName : String
  fileType : String
  fileHash : String
  slidesJson : String
  globalAnalysisJson : Option String
  createdAt : String
  updatedAt : String
  deriving DecidableEq, Repr

/-- A row of the `page_analysis` table. -/
structure PageRow where
  docId : String
  pageId : Nat
  analysisJson : String
  createdAt : String
  updatedAt : String
  deriving DecidableEq, Repr

/-- Error type for persistence operations; the service itself never
raises a "not found" error, but the type makes "could fail" statable. -/
inductive PersistErr where
  | notFound : PersistErr
  deriving DecidableEq, Repr

/-- Embedding of `update_global_analysis`: a bare
`UPDATE documents SET global_analysis_json=?, updated_at=? WHERE doc_id=?`.
A `doc_id` matching no row leaves the table unchanged and still succeeds
(SQLite does not report zero-row updates as errors). -/
def updateGlobalAnalysis (db : List DocRow) (docId analysisJson now : String) :
    Except PersistErr (List DocRow) :=
  .ok (db.map (fun r =>
    if r.docId = docId then
      { r with globalAnalysisJson := some analysisJson, updatedAt := now }
    else r))

/-- Embedding of `upsert_page_analysis`: update `analysis_json` and
`updated_at` when the `(doc_id, page_id)` row exists, otherwise insert a
fresh row with both timestamps set to `now`. -/
def upsertPageAnalysis (t : List PageRow) (docId : String) (pageId : Nat)
    (analysisJson now : String) : List PageRow :=
  if t.any (fun r => decide (r.docId = docId ∧ r.pageId = pageId)) then
    t.map (fun r =>
      if r.docId = docId ∧ r.pageId = pageId then
        { r with analysisJson := analysisJson, updatedAt := now }
      else r)
  else t ++ [{ docId := docId, pageId := pageId, analysisJson := analysisJson,
               createdAt := now, updatedAt := now }]

/-- Embedding of `upsert_document`: keyed on `file_hash`; an existing row
keeps its `doc_id` and `created_at` and is updated in place
(`global_analysis_json` only when provided); otherwise a new row is
inserted with both timestamps set to `now`. -/
def upsertDocument (db : List DocRow) (docId fileName fileType fileHash
    slidesJson : String) (ga : Option String) (now : String) : List DocRow :=
  if db.any (fun r => decide (r.fileHash = fileHash)) then
    db.map (fun r =>
      if r.fileHash = fileHash then
        match ga with
        | some g =>
            { r with
              fileName := fileName, fileType := fileType,
              slidesJson := slidesJson,
              globalAnalysisJson := some g, updatedAt := now }
        | none =>
            { r with
              fileName := fileName, fileType := fileType,
              slidesJson := slidesJson, updatedAt := now }
      else r)
  else db ++ [{ docId := docId, fileName := fileName, fileType := fileType,
                fileHash := fileHash, slidesJson := slidesJson,
                globalAnalysisJson := ga, createdAt := now,
                updatedAt := now }]

/-! ## Ingestion flow of `expand_ppt` (app.py 343-386)

The upload handler hashes the file, looks the hash up, and short-circuits
with `cached=True` when a document with that hash already exists; only
otherwise does it parse, store chunks and upsert the document row.
Parsing, serialization and chunk building are external collaborators and
enter as function parameters; an effect list records which expensive
steps ran. -/

/-- Combined persistent state touched by ingestion: the `documents`
table and the vector store's chunk collection. -/
structure IngestState where
  docs : List DocRow
  chunks : List KChunk
  deriving DecidableEq, Repr

/-- The response shape of `expand_ppt` restricted to the fields the
idempotence claim is about. -/
structure IngResp where
  docId : String
  fileHash : String
  cached : Bool
  deriving DecidableEq, Repr

/-- Expensive work performed during one ingestion call. -/
inductive IngEffect where
  | parsed
  | storedChunks
  | docWritten
  deriving DecidableEq, Repr

/-- Result of one `expand_ppt` call. -/
structure IngOut where
  state : IngestState
  resp : IngResp
  effects : List IngEffect
  deriving Repr

/-- Embedding of the `expand_ppt` ingestion flow over abstract byte and
slide types: `file_hash = sha256(bytes)`, then
`get_document_by_hash(file_hash)`; a hit returns the stored `doc_id`
with `cached=True` doing no further work, a miss parses, stores chunks
and upserts the document row with the freshly generated `doc_id`. -/
def expandPpt {B S : Type} (hashFn : B → String) (parseFn : B → S)
    (serializeFn : S → String) (buildChunks : String → String → S → List KChunk)
    (newDocId now : String) (st : IngestState) (bytes : B)
    (fileName fileType : String) : IngOut :=
  let h := hashFn bytes
  match st.docs.find? (fun r => decide (r.fileHash = h)) with
  | some doc =>
      { state := st, resp := { docId := doc.docId, fileHash := h, cached := true },
        effects := [] }
  | none =>
      let slides := parseFn bytes
      let newChunks := buildChunks fileName fileType slides
      let docs2 := upsertDocument st.docs newDocId fileName fileType h
        (serializeFn slides) none now
      { state := { docs := docs2, chunks := st.chunks ++ newChunks },
        resp := { docId := newDocId, fileHash := h, cached := false },
        effects := [IngEffect.parsed, IngEffect.storedChunks,
                    IngEffect.docWritten] }

/-! ## Chunk storage batching (store_document_slides, 281-311) -/

/-- Split a list into consecutive batches of `n` (the Python loop
`for i in range(0, len(documents), batch_size)`); also reused for the
character-level hard split of an oversized chunk. -/
def batchesOf (n : Nat) : List α → List (List α)
  | [] => []
  | x :: t => (x :: t).take n :: batchesOf n (t.drop (n - 1))
  termination_by l => l.length
  decreasing_by simp only [List.length_cons, List.length_drop]; omega

/-- Embedding of the batched insert with per-item retry: a batch whose
bulk insert fails (`batchOk` false) is retried item by item, and an item
whose single insert fails (`accept` false, e.g. the embedding backend's
size-limit error) is logged and skipped while the loop continues.
Returns the list of chunks actually stored, in order. -/
def storeBatches (batchOk : List KChunk → Bool) (accept : KChunk → Bool)
    (docs : List KChunk) : List KChunk :=
  ((batchesOf 5 docs).map (fun b =>
    if batchOk b then b else b.filter accept)).flatten

/-! ## Chunking policy (_split_text_for_embedding, 152-201) -/

/-- Python `text.split('\n')`: split on every newline, keeping empty
lines, never returning an empty list. -/
def splitLinesPy : List Char → List (List Char)
  | [] => [[]]
  | c :: t =>
      if c = '\n' then [] :: splitLinesPy t
      else
        match splitLinesPy t with
        | [] => [[c]]
        | h :: r => (c :: h) :: r

/-- Python `'\n'.join(...)`. -/
def intercalateNl : List (List Char) → List Char
  | [] => []
  | [x] => x
  | x :: y :: t => x ++ '\n' :: intercalateNl (y :: t)

/-- The greedy line-packing loop of `_split_text_for_embedding`:
`current_length` counts `len(line) + 1` per line; when adding a line
would exceed `max_chars` and the current chunk is nonempty, the chunk is
flushed and the line starts a new one; a trailing nonempty chunk is
flushed at the end. -/
def greedyGo (maxChars : Nat) : List (List Char) → List (List Char) → Nat →
    List (List Char)
  | [], cur, _ => if cur = [] then [] else [intercalateNl cur]
  | line :: rest, cur, curLen =>
      let lineLen := line.length + 1
      if maxChars < curLen + lineLen ∧ cur ≠ [] then
        intercalateNl cur :: greedyGo maxChars rest [line] lineLen
      else greedyGo maxChars rest (cur ++ [line]) (curLen + lineLen)

/-- Embedding of `_split_text_for_embedding`: texts within
`max_chars = max_tokens * 3` stay whole; longer texts are packed line by
line, and any chunk still longer than `max_chars` (a single oversized
line) is hard-split at the character boundary. -/
def splitTextForEmbedding (text : List Char) (maxTokens : Nat) :
    List (List Char) :=
  let maxChars := maxTokens * 3
  if text.length ≤ maxChars then [text]
  else
    let lines := splitLinesPy text
    let chunks := greedyGo maxChars lines [] 0
    chunks.flatMap (fun c =>
      if maxChars < c.length then batchesOf maxChars c else [c])

/-- Concatenate chunks with one separator inserted between consecutive
chunks, ignoring surplus separators. -/
def joinWithSeps : List (List Char) → List (List Char) → List Char
  | [], _ => []
  | [c], _ => c
  | c :: c2 :: t, [] => c ++ joinWithSeps (c2 :: t) []
  | c :: c2 :: t, s :: ss => c ++ s ++ joinWithSeps (c2 :: t) ss

/-- The separators that reconstruct the original text from the final
chunk list: none between the slices of a hard-split chunk, one newline
between chunks that the greedy packing separated. -/
def mkSeps : List (List (List Char)) → List (List Char)
  | [] => []
  | [g] => List.replicate (g.length - 1) []
  | g :: g2 :: t =>
      List.replicate (g.length - 1) [] ++ ['\n'] :: mkSeps (g2 :: t)

/-! ## Claim C6: update_global_analysis -/

/-- C6 counterexample: `update_global_analysis` on a store that does not
contain the addressed `doc_id` succeeds silently with the table unchanged
(the SQL `UPDATE` simply matches zero rows); it does not fail with a
`NotFoundError`, contrary to the claim. -/
theorem c6_counterexample :
    updateGlobalAnalysis [] ("missing-doc") ("{}") ("t0") = Except.ok [] := rfl

/-- C6 amended: `update_global_analysis` always succeeds; rows whose
`doc_id` differs from the addressed one are untouched, the addressed
row keeps every field except `global_analysis_json` and `updated_at`,
and an unknown `doc_id` leaves the table unchanged. -/
theorem c6_update_global_analysis (db : List DocRow) (docId a now : String) :
    ∃ db2,
      updateGlobalAnalysis db docId a now = Except.ok db2 ∧
      List.Forall₂ (fun r r2 =>
        r2.docId = r.docId ∧ r2.fileName = r.fileName ∧
        r2.fileType = r.fileType ∧ r2.fileHash = r.fileHash ∧
        r2.slidesJson = r.slidesJson ∧ r2.createdAt = r.createdAt ∧
        (r.docId ≠ docId → r2 = r) ∧
        (r.docId = docId →
          r2.globalAnalysisJson = some a ∧ r2.updatedAt = now)) db db2 ∧
      ((∀ r ∈ db, r.docId ≠ docId) → db2 = db) := by
  refine ⟨_, rfl, ?_, ?_⟩
  · rw [List.forall₂_map_right_iff]
    rw [List.forall₂_same]
    intro r _
    by_cases h : r.docId = docId
    · simp [h]
    · simp [h]
  · intro hnone
    have : ∀ r ∈ db,
        (if r.docId = docId then
          { r with globalAnalysisJson := some a, updatedAt := now }
        else r) = id r := by
      intro r hr
      simp [hnone r hr]
    rw [List.map_congr_left this, List.map_id]

/-- Sample document row used to instantiate the persistence theorems. -/
def sampleDocRow : DocRow :=
  { docId := ("d1"), fileName := ("f"), fileType := ("pdf"),
    fileHash := ("h"), slidesJson := ("[]"),
    globalAnalysisJson := none, createdAt := ("t0"), updatedAt := ("t0") }

/-- C6 witness: instantiation of the amended theorem on a one-row table. -/
theorem c6_witness :
    ∃ db2,
      updateGlobalAnalysis [sampleDocRow] ("d1") ("{}") ("t1") =
        Except.ok db2 ∧
      List.Forall₂ (fun r r2 =>
        r2.docId = r.docId ∧ r2.fileName = r.fileName ∧
        r2.fileType = r.fileType ∧ r2.fileHash = r.fileHash ∧
        r2.slidesJson = r.slidesJson ∧ r2.createdAt = r.createdAt ∧
        (r.docId ≠ ("d1") → r2 = r) ∧
        (r.docId = ("d1") →
          r2.globalAnalysisJson = some ("{}") ∧ r2.updatedAt = ("t1")))
        [sampleDocRow] db2 ∧
      ((∀ r ∈ [sampleDocRow], r.docId ≠ ("d1")) → db2 = [sampleDocRow]) :=
  c6_update_global_analysis [sampleDocRow] ("d1") ("{}") ("t1")

/-! ## Claim C10: upsert_page_analysis frame condition -/

/-- C10: when a `(doc_id, page_id)` row already exists,
`upsert_page_analysis` maps the table row-by-row: the addressed row gets
the new `analysis_json` and `updated_at` while keeping its key and its
original `created_at`, and every other row is untouched. -/
theorem c10_upsert_page_analysis (t : List PageRow) (docId : String)
    (pageId : Nat) (a now : String)
    (hex : ∃ r ∈ t, r.docId = docId ∧ r.pageId = pageId) :
    List.Forall₂ (fun r r2 =>
      r2.docId = r.docId ∧ r2.pageId = r.pageId ∧
      r2.createdAt = r.createdAt ∧
      (¬(r.docId = docId ∧ r.pageId = pageId) → r2 = r) ∧
      ((r.docId = docId ∧ r.pageId = pageId) →
        r2.analysisJson = a ∧ r2.updatedAt = now))
      t (upsertPageAnalysis t docId pageId a now) := by
  have hany : t.any (fun r => decide (r.docId = docId ∧ r.pageId = pageId)) = true := by
    rcases hex with ⟨r, hr, h1, h2⟩
    exact List.any_eq_true.2 ⟨r, hr, by simp [h1, h2]⟩
  unfold upsertPageAnalysis
  rw [if_pos hany, List.forall₂_map_right_iff, List.forall₂_same]
  intro r _
  by_cases h : r.docId = docId ∧ r.pageId = pageId
  · simp [h]
  · simp [h]

/-- C10 witness: instantiation on a one-row table whose key matches. -/
theorem c10_witness :
    List.Forall₂ (fun r r2 =>
      r2.docId = r.docId ∧ r2.pageId = r.pageId ∧
      r2.createdAt = r.createdAt ∧
      (¬(r.docId = ("d1") ∧ r.pageId = 3) → r2 = r) ∧
      ((r.docId = ("d1") ∧ r.pageId = 3) →
        r2.analysisJson = ("new") ∧ r2.updatedAt = ("t1")))
      [{ docId := ("d1"), pageId := 3, analysisJson := ("old"),
         createdAt := ("t0"), updatedAt := ("t0") }]
      (upsertPageAnalysis
        [{ docId := ("d1"), pageId := 3, analysisJson := ("old"),
           createdAt := ("t0"), updatedAt := ("t0") }]
        ("d1") 3 ("new") ("t1")) :=
  c10_upsert_page_analysis _ ("d1") 3 ("new") ("t1")
    ⟨_, List.mem_singleton.2 rfl, rfl, rfl⟩

/-! ## Claim C7: ingest idempotence by file hash -/

theorem find?_append_of_none {p : α → Bool} {l₁ : List α} (l₂ : List α)
    (h : l₁.find? p = none) : (l₁ ++ l₂).find? p = l₂.find? p := by
  induction l₁ with
  | nil => simp
  | cons x t ih =>
      cases hp : p x with
      | true =>
          rw [List.find?_cons_of_pos _ hp] at h
          simp at h
      | false =>
          rw [List.find?_cons_of_neg _ (by simp [hp])] at h
          rw [List.cons_append, List.find?_cons_of_neg _ (by simp [hp])]
          exact ih h

/-- C7: ingesting the same bytes twice computes the same hash both times,
and the second call hits the hash lookup before any work: it reports
`cached = true`, leaves the documents table and the vector store
unchanged, and performs no parsing, chunk storage or document write. -/
theorem c7_ingest_idempotent {B S : Type} (hashFn : B → String)
    (parseFn : B → S) (serializeFn : S → String)
    (buildChunks : String → String → S → List KChunk)
    (id1 id2 t1 t2 : String) (st : IngestState) (bytes : B)
    (fn1 ft1 fn2 ft2 : String) :
    (expandPpt hashFn parseFn serializeFn buildChunks id2 t2
        (expandPpt hashFn parseFn serializeFn buildChunks id1 t1 st bytes
          fn1 ft1).state bytes fn2 ft2).resp.cached = true ∧
    (expandPpt hashFn parseFn serializeFn buildChunks id2 t2
        (expandPpt hashFn parseFn serializeFn buildChunks id1 t1 st bytes
          fn1 ft1).state bytes fn2 ft2).resp.fileHash =
      (expandPpt hashFn parseFn serializeFn buildChunks id1 t1 st bytes
        fn1 ft1).resp.fileHash ∧
    (expandPpt hashFn parseFn serializeFn buildChunks id2 t2
        (expandPpt hashFn parseFn serializeFn buildChunks id1 t1 st bytes
          fn1 ft1).state bytes fn2 ft2).state =
      (expandPpt hashFn parseFn serializeFn buildChunks id1 t1 st bytes
        fn1 ft1).state ∧
    (expandPpt hashFn parseFn serializeFn buildChunks id2 t2
        (expandPpt hashFn parseFn serializeFn buildChunks id1 t1 st bytes
          fn1 ft1).state bytes fn2 ft2).effects = [] := by
  unfold expandPpt
  cases hfind : st.docs.find? (fun r => decide (r.fileHash = hashFn bytes)) with
  | some doc => simp [hfind]
  | none =>
      have hnone : ∀ r ∈ st.docs, r.fileHash ≠ hashFn bytes := by
        intro r hr
        have := List.find?_eq_none.1 hfind r hr
        simpa using this
      have hany : st.docs.any (fun r => decide (r.fileHash = hashFn bytes)) = false := by
        rw [← Bool.not_eq_true, List.any_eq_true]
        rintro ⟨r, hr, hp⟩
        exact hnone r hr (by simpa using hp)
      simp only [hfind]
      unfold upsertDocument
      rw [hany]
      simp only [Bool.false_eq_true, if_false]
      rw [find?_append_of_none _ hfind]
      simp [List.find?]

/-! ## Claim C8: batch insert with per-item retry -/

theorem flatten_batchesOf_le {α : Type} (n : Nat) (hn : 1 ≤ n) :
    ∀ (N : Nat) (l : List α), l.length ≤ N →
      (batchesOf n l).flatten = l := by
  intro N
  induction N with
  | zero =>
      intro l hl
      have : l = [] := by
        cases l with
        | nil => rfl
        | cons x t => simp at hl
      simp [this, batchesOf]
  | succ N ih =>
      intro l hl
      cases l with
      | nil => simp [batchesOf]
      | cons x t =>
          rw [batchesOf, List.flatten_cons,
            ih (t.drop (n - 1)) (by simp only [List.length_drop]
                                    simp only [List.length_cons] at hl
                                    omega)]
          cases n with
          | zero => omega
          | succ m =>
              simp only [List.take_succ_cons, Nat.add_sub_cancel,
                List.cons_append, List.cons.injEq, true_and]
              exact List.take_append_drop m t

theorem flatten_batchesOf {α : Type} (n : Nat) (hn : 1 ≤ n) (l : List α) :
    (batchesOf n l).flatten = l :=
  flatten_batchesOf_le n hn l.length l le_rfl

theorem length_mem_batchesOf {α : Type} (n : Nat) :
    ∀ (N : Nat) (l : List α), l.length ≤ N →
      ∀ b ∈ batchesOf n l, b.length ≤ n := by
  intro N
  induction N with
  | zero =>
      intro l hl b hb
      have : l = [] := by
        cases l with
        | nil => rfl
        | cons x t => simp at hl
      subst this
      simp [batchesOf] at hb
  | succ N ih =>
      intro l hl b hb
      cases l with
      | nil => simp [batchesOf] at hb
      | cons x t =>
          rw [batchesOf] at hb
          rcases List.mem_cons.1 hb with rfl | hb
          · exact (x :: t).length_take_le n
          · exact ih (t.drop (n - 1))
              (by simp only [List.length_drop]
                  simp only [List.length_cons] at hl
                  omega) b hb

theorem flatten_map_filter {α : Type} (p : α → Bool) :
    ∀ (L : List (List α)), (L.map (fun b => b.filter p)).flatten =
      L.flatten.filter p := by
  intro L
  induction L with
  | nil => simp
  | cons b t ih =>
      simp only [List.map_cons, List.flatten_cons, List.filter_append, ih]

/-- C8: when every batch the bulk insert accepts consists of individually
insertable chunks, the batched store with per-item retry stores exactly
the individually insertable chunks, in order: a chunk the backend rejects
(for example with its size-limit error) is skipped, and every other chunk
of its batch — and of all later batches — is still stored. -/
theorem c8_store_batches (batchOk : List KChunk → Bool)
    (accept : KChunk → Bool) (docs : List KChunk)
    (hb : ∀ b, batchOk b = true → ∀ c ∈ b, accept c = true) :
    storeBatches batchOk accept docs = docs.filter accept := by
  unfold storeBatches
  have hcongr : ∀ b ∈ batchesOf 5 docs,
      (if batchOk b then b else b.filter accept) = b.filter accept := by
    intro b _
    by_cases h : batchOk b = true
    · rw [if_pos h]
      symm
      rw [List.filter_eq_self]
      intro c hc
      exact hb b h c hc
    · rw [if_neg h]
  rw [List.map_congr_left hcongr, flatten_map_filter,
    flatten_batchesOf 5 (by omega) docs]

/-- Sample chunk rows used to instantiate the retrieval theorems. -/
def sampleChunkA : KChunk :=
  { text := ("foo x".toList), fileName := ("f.pdf"), pageNum := 1 }

/-- Second sample chunk row on the same page as `sampleChunkA`. -/
def sampleChunkB : KChunk :=
  { text := ("foo y".toList), fileName := ("f.pdf"), pageNum := 1 }

/-- C8 witness: a backend that rejects `sampleChunkB` (and any batch
containing it) stores exactly the other chunk. -/
theorem c8_witness :
    storeBatches (fun b => decide (sampleChunkB ∉ b))
      (fun c => decide (c ≠ sampleChunkB))
      [sampleChunkA, sampleChunkB, sampleChunkA] =
      [sampleChunkA, sampleChunkB, sampleChunkA].filter
        (fun c => decide (c ≠ sampleChunkB)) :=
  c8_store_batches _ _ _ (by
    intro b hbk c hc
    rw [decide_eq_true_eq] at hbk
    exact decide_eq_true (fun hEq => hbk (hEq ▸ hc)))


/-! ## Claims C5 and C9: failure handling of the search path -/

theorem insertBy_perm (le : α → α → Bool) (x : α) :
    ∀ (l : List α), List.Perm (insertBy le x l) (x :: l) := by
  intro l
  induction l with
  | nil => simp [insertBy]
  | cons y t ih =>
      rw [insertBy]
      by_cases h : le x y = true
      · rw [if_pos h]
      · rw [if_neg h]
        exact (ih.cons y).trans (List.Perm.swap x y t)

theorem sortBy_perm (le : α → α → Bool) :
    ∀ (l : List α), List.Perm (sortBy le l) l := by
  intro l
  induction l with
  | nil => simp [sortBy]
  | cons x t ih =>
      rw [sortBy]
      exact (insertBy_perm le x (sortBy le t)).trans (ih.cons x)

theorem mem_sortBy {le : α → α → Bool} {l : List α} {x : α}
    (hx : x ∈ sortBy le l) : x ∈ l :=
  (sortBy_perm le l).mem_iff.1 hx

theorem method_mem_searchByKeyword (q : List Char) (k : Nat)
    (fnf : Option String) (chunks : List KChunk) :
    ∀ r ∈ searchByKeyword q k fnf chunks, r.method = some ("keyword") := by
  intro r hr
  unfold searchByKeyword at hr
  have hr2 := mem_sortBy (List.mem_of_mem_take hr)
  rcases List.mem_filterMap.1 hr2 with ⟨c, _, hc⟩
  simp only at hc
  split at hc
  · simp at hc
  · split at hc
    · have := Option.some.inj hc
      rw [← this]
    · simp at hc

/-- C5 counterexample: with the vector backend failing (for example with
an HTTP 500) and nothing retrievable lexically, `search_similar_slides`
returns the empty list silently; no typed error of any kind reaches the
caller, contrary to the claim that a typed `EmbeddingBackendError` is
raised for the caller (a separate HybridRetriever) to handle. -/
theorem c5_counterexample :
    searchSimilarSlides (("q".toList)) 10 none 0
      (Except.error ("500 InternalServerError")) (Except.ok []) = [] := rfl

/-- C5 amended: the backend exception is consumed inside
`search_similar_slides` itself, which always answers with the keyword
fallback's (possibly empty) result list — identically for every failure
message — and answers `[]` when the fallback's store read also fails.
No typed `EmbeddingBackendError` exists and no fallback decision is left
to a caller. -/
theorem c5_search_catches_backend_error (q : List Char) (k : Nat)
    (fnf : Option String) (ms : ℚ) (e : String)
    (store : Except String (List KChunk)) :
    searchSimilarSlides q k fnf ms (Except.error e) store =
      searchByKeywordSafe q k fnf store ∧
    (∀ e2 : String,
      searchSimilarSlides q k fnf ms (Except.error e) (Except.error e2) = []) :=
  ⟨rfl, fun _ => rfl⟩

/-- C9: when the vector search raises, the result is still a plain list,
every entry of it is tagged with `method = "keyword"`, and a failure of
the fallback's own store read yields the empty list instead of an error. -/
theorem c9_fallback_tagged (q : List Char) (k : Nat) (fnf : Option String)
    (ms : ℚ) (e : String) (store : Except String (List KChunk)) :
    (∀ r ∈ searchSimilarSlides q k fnf ms (Except.error e) store,
       r.method = some ("keyword")) ∧
    (∀ e2 : String,
      searchSimilarSlides q k fnf ms (Except.error e) (Except.error e2) = []) := by
  constructor
  · intro r hr
    unfold searchSimilarSlides at hr
    unfold searchByKeywordSafe at hr
    cases store with
    | error _ => simp at hr
    | ok chunks => exact method_mem_searchByKeyword q k fnf chunks r hr
  · intro e2
    rfl

/-- The single result entry produced by the keyword fallback over a store
holding just `sampleChunkA` for the query `"foo"`. -/
def sampleKwEntry : REntry :=
  { content := ("foo x".toList), fileName := ("f.pdf"), pageNum := 1,
    score := pyMin ((1 : ℚ) / 10) 1, distance := 0, semantic := 0,
    kwBoost := 0, boosted := false, method := some ("keyword"),
    matchCount := 1 }

theorem sampleKwEntry_mem :
    sampleKwEntry ∈ searchSimilarSlides (("foo".toList)) 5 none 0
      (Except.error ("boom")) (Except.ok [sampleChunkA]) := by
  have hin : pyIn (toLowerL ("foo".toList)) (toLowerL sampleChunkA.text) = true := by
    decide
  have hcnt : countOccs (toLowerL ("foo".toList)) (toLowerL sampleChunkA.text) = 1 := by
    decide
  show sampleKwEntry ∈ searchByKeyword (("foo".toList)) 5 none [sampleChunkA]
  unfold searchByKeyword
  simp only [List.filterMap_cons, List.filterMap_nil, hin, if_true, hcnt]
  simp [sortBy, insertBy, List.take, sampleKwEntry, sampleChunkA]

/-- C9 witness: a concrete fallback run over a one-chunk store yields a
member that the theorem tags as a keyword result. -/
theorem c9_witness :
    sampleKwEntry ∈ searchSimilarSlides (("foo".toList)) 5 none 0
      (Except.error ("boom")) (Except.ok [sampleChunkA]) ∧
    sampleKwEntry.method = some ("keyword") :=
  ⟨sampleKwEntry_mem,
   (c9_fallback_tagged (("foo".toList)) 5 none 0 ("boom")
      (Except.ok [sampleChunkA])).1 sampleKwEntry sampleKwEntry_mem⟩

/-! ## Claim C1: per-page deduplication -/

/-- Two result entries address different pages. -/
def keyNe (a b : REntry) : Prop := entryKey a ≠ entryKey b

theorem keyNe_symm : ∀ {a b : REntry}, keyNe a b → keyNe b a :=
  fun h => Ne.symm h

theorem mem_upsertBest : ∀ (acc : List REntry) (e x : REntry),
    x ∈ upsertBest acc e → x = e ∨ x ∈ acc := by
  intro acc
  induction acc with
  | nil =>
      intro e x hx
      simp only [upsertBest, List.mem_singleton] at hx
      exact Or.inl hx
  | cons e0 t ih =>
      intro e x hx
      rw [upsertBest] at hx
      by_cases hk : entryKey e = entryKey e0
      · rw [if_pos hk] at hx
        by_cases hs : e0.score < e.score
        · rw [if_pos hs] at hx
          rcases List.mem_cons.1 hx with rfl | hx
          · exact Or.inl rfl
          · exact Or.inr (List.mem_cons_of_mem _ hx)
        · rw [if_neg hs] at hx
          exact Or.inr hx
      · rw [if_neg hk] at hx
        rcases List.mem_cons.1 hx with rfl | hx
        · exact Or.inr (List.mem_cons_self _ _)
        · rcases ih e x hx with h | h
          · exact Or.inl h
          · exact Or.inr (List.mem_cons_of_mem _ h)

theorem pairwise_upsertBest : ∀ (acc : List REntry) (e : REntry),
    acc.Pairwise keyNe → (upsertBest acc e).Pairwise keyNe := by
  intro acc
  induction acc with
  | nil => intro e _; simp [upsertBest]
  | cons e0 t ih =>
      intro e hp
      rw [List.pairwise_cons] at hp
      obtain ⟨h0, ht⟩ := hp
      rw [upsertBest]
      by_cases hk : entryKey e = entryKey e0
      · rw [if_pos hk]
        by_cases hs : e0.score < e.score
        · rw [if_pos hs]
          rw [List.pairwise_cons]
          refine ⟨fun x hx => ?_, ht⟩
          have := h0 x hx
          unfold keyNe at this ⊢
          rw [hk]
          exact this
        · rw [if_neg hs]
          exact List.Pairwise.cons h0 ht
      · rw [if_neg hk]
        rw [List.pairwise_cons]
        constructor
        · intro x hx
          rcases mem_upsertBest t e x hx with rfl | hx
          · exact fun hEq => hk hEq.symm
          · exact h0 x hx
        · exact ih e ht

theorem upsertBest_self_score : ∀ (acc : List REntry) (e : REntry),
    acc.Pairwise keyNe →
    ∀ x ∈ upsertBest acc e, entryKey x = entryKey e → e.score ≤ x.score := by
  intro acc
  induction acc with
  | nil =>
      intro e _ x hx _
      simp only [upsertBest, List.mem_singleton] at hx
      subst hx
      exact le_rfl
  | cons e0 t ih =>
      intro e hp x hx hk
      rw [List.pairwise_cons] at hp
      obtain ⟨h0, ht⟩ := hp
      rw [upsertBest] at hx
      by_cases hke : entryKey e = entryKey e0
      · rw [if_pos hke] at hx
        by_cases hs : e0.score < e.score
        · rw [if_pos hs] at hx
          rcases List.mem_cons.1 hx with rfl | hx
          · exact le_rfl
          · exact absurd (hk.trans hke).symm (h0 x hx)
        · rw [if_neg hs] at hx
          rcases List.mem_cons.1 hx with rfl | hx
          · exact le_of_not_lt hs
          · exact absurd (hk.trans hke).symm (h0 x hx)
      · rw [if_neg hke] at hx
        rcases List.mem_cons.1 hx with rfl | hx
        · exact absurd hk.symm hke
        · exact ih e ht x hx hk

theorem key_self_upsertBest : ∀ (acc : List REntry) (e : REntry),
    entryKey e ∈ (upsertBest acc e).map entryKey := by
  intro acc
  induction acc with
  | nil => intro e; simp [upsertBest]
  | cons e0 t ih =>
      intro e
      rw [upsertBest]
      by_cases hke : entryKey e = entryKey e0
      · rw [if_pos hke]
        by_cases hs : e0.score < e.score
        · rw [if_pos hs]
          simp only [List.map_cons, List.mem_cons]
          left
          trivial
        · rw [if_neg hs]
          simp only [List.map_cons, List.mem_cons]
          exact Or.inl hke
      · rw [if_neg hke]
        simp only [List.map_cons, List.mem_cons]
        exact Or.inr (ih e)

theorem upsertBest_inv (k : String × Nat) (v : ℚ) :
    ∀ (acc : List REntry) (f : REntry),
      k ∈ acc.map entryKey →
      (∀ x ∈ acc, entryKey x = k → v ≤ x.score) →
      k ∈ (upsertBest acc f).map entryKey ∧
      (∀ x ∈ upsertBest acc f, entryKey x = k → v ≤ x.score) := by
  intro acc
  induction acc with
  | nil => intro f hk _; simp at hk
  | cons e0 t ih =>
      intro f hk hv
      rw [upsertBest]
      by_cases hke : entryKey f = entryKey e0
      · rw [if_pos hke]
        by_cases hs : e0.score < f.score
        · rw [if_pos hs]
          constructor
          · simp only [List.map_cons, List.mem_cons] at hk ⊢
            rcases hk with hk | hk
            · exact Or.inl (by rw [hke]; exact hk)
            · exact Or.inr hk
          · intro x hx hxk
            rcases List.mem_cons.1 hx with rfl | hx
            · have hek : entryKey e0 = k := by rw [← hke]; exact hxk
              have he0 : v ≤ e0.score :=
                hv e0 (List.mem_cons_self _ _) hek
              exact le_of_lt (lt_of_le_of_lt he0 hs)
            · exact hv x (List.mem_cons_of_mem _ hx) hxk
        · rw [if_neg hs]
          exact ⟨hk, hv⟩
      · rw [if_neg hke]
        simp only [List.map_cons, List.mem_cons] at hk
        rcases hk with hk | hk
        · constructor
          · simp only [List.map_cons, List.mem_cons]
            exact Or.inl hk
          · intro x hx hxk
            rcases List.mem_cons.1 hx with rfl | hx
            · exact hv x (List.mem_cons_self _ _) hxk
            · rcases mem_upsertBest t f x hx with rfl | hx2
              · exact absurd (hxk.trans hk) hke
              · exact hv x (List.mem_cons_of_mem _ hx2) hxk
        · have ht := ih f hk
            (fun x hx hxk => hv x (List.mem_cons_of_mem _ hx) hxk)
          constructor
          · simp only [List.map_cons, List.mem_cons]
            exact Or.inr ht.1
          · intro x hx hxk
            rcases List.mem_cons.1 hx with rfl | hx
            · exact hv x (List.mem_cons_self _ _) hxk
            · exact ht.2 x hx hxk

theorem processHits_pairwise (qL : List Char) (ms : ℚ) :
    ∀ (hits : List (Hit × ℚ)) (acc : List REntry),
      acc.Pairwise keyNe → (processHits qL ms hits acc).Pairwise keyNe := by
  intro hits
  induction hits with
  | nil => intro acc h; exact h
  | cons hd rest ih =>
      intro acc hp
      obtain ⟨h, d⟩ := hd
      simp only [processHits]
      by_cases hflt : similarityOf d < ms
      · rw [if_pos hflt]
        exact ih acc hp
      · rw [if_neg hflt]
        exact ih _ (pairwise_upsertBest acc _ hp)

theorem processHits_inv (qL : List Char) (ms : ℚ) (k : String × Nat) (v : ℚ) :
    ∀ (hits : List (Hit × ℚ)) (acc : List REntry),
      k ∈ acc.map entryKey →
      (∀ x ∈ acc, entryKey x = k → v ≤ x.score) →
      k ∈ (processHits qL ms hits acc).map entryKey ∧
      (∀ x ∈ processHits qL ms hits acc, entryKey x = k → v ≤ x.score) := by
  intro hits
  induction hits with
  | nil => intro acc hk hv; exact ⟨hk, hv⟩
  | cons hd rest ih =>
      intro acc hk hv
      obtain ⟨h, d⟩ := hd
      simp only [processHits]
      by_cases hflt : similarityOf d < ms
      · rw [if_pos hflt]
        exact ih acc hk hv
      · rw [if_neg hflt]
        apply ih
        · exact (upsertBest_inv k v acc _ hk hv).1
        · exact (upsertBest_inv k v acc _ hk hv).2

theorem processHits_scores (qL : List Char) (ms : ℚ) :
    ∀ (hits : List (Hit × ℚ)) (acc : List REntry),
      acc.Pairwise keyNe →
      ∀ hd ∈ hits, ¬ (similarityOf hd.2 < ms) →
        (hd.1.fileName, hd.1.pageNum) ∈
          (processHits qL ms hits acc).map entryKey ∧
        ∀ e ∈ processHits qL ms hits acc,
          entryKey e = (hd.1.fileName, hd.1.pageNum) →
          finalScoreOf qL (toLowerL hd.1.content) hd.2 ≤ e.score := by
  intro hits
  induction hits with
  | nil => intro acc _ hd hmem; simp at hmem
  | cons hd0 rest ih =>
      intro acc hp hd hmem hms
      rcases List.mem_cons.1 hmem with heq | hmem2
      · subst heq
        obtain ⟨h, d⟩ := hd
        simp only [processHits]
        rw [if_neg hms]
        refine processHits_inv qL ms (h.fileName, h.pageNum) _ rest _ ?_ ?_
        · exact key_self_upsertBest acc _
        · exact upsertBest_self_score acc _ hp
      · obtain ⟨h0, d0⟩ := hd0
        simp only [processHits]
        by_cases hflt : similarityOf d0 < ms
        · rw [if_pos hflt]
          exact ih acc hp hd hmem2 hms
        · rw [if_neg hflt]
          exact ih _ (pairwise_upsertBest acc _ hp) hd hmem2 hms

theorem entryKey_fileBoost (fnf : Option String) (e : REntry) :
    entryKey (match fnf with
      | none => e
      | some fn =>
          if e.fileName = fn then
            { e with score := pyMin 1 (e.score + 0.2), boosted := true }
          else e) = entryKey e := by
  cases fnf with
  | none => rfl
  | some fn =>
      by_cases h : e.fileName = fn
      · simp only [if_pos h]
        rfl
      · simp only [if_neg h]

theorem pairwise_fileBoost (fnf : Option String) (es : List REntry)
    (hp : es.Pairwise keyNe) : (fileBoost fnf es).Pairwise keyNe := by
  cases fnf with
  | none => exact hp
  | some fn =>
      rw [fileBoost, List.pairwise_map]
      refine hp.imp_of_mem ?_
      intro a b _ _ hab
      unfold keyNe at hab ⊢
      have ha := entryKey_fileBoost (some fn) a
      have hb := entryKey_fileBoost (some fn) b
      simp only at ha hb
      rw [ha, hb]
      exact hab

/-- C1 counterexample: the keyword fallback path performs no per-page
deduplication: two chunks of the same `(file_name, page_num)` page that
both contain the query are both returned. -/
theorem c1_counterexample :
    ¬ (searchByKeyword (("foo".toList)) 10 none
        [sampleChunkA, sampleChunkB]).Pairwise keyNe := by
  intro hpw
  unfold searchByKeyword at hpw
  have hin1 : pyIn (toLowerL ("foo".toList)) (toLowerL sampleChunkA.text) = true := by
    decide
  have hin2 : pyIn (toLowerL ("foo".toList)) (toLowerL sampleChunkB.text) = true := by
    decide
  simp only [List.filterMap_cons, List.filterMap_nil, hin1, hin2, if_true,
    Bool.false_eq_true, if_false] at hpw
  rw [List.take_of_length_le
    (by rw [(sortBy_perm kwDescLe _).length_eq]; simp)] at hpw
  rw [(sortBy_perm kwDescLe _).pairwise_iff (fun h => keyNe_symm h)] at hpw
  rw [List.pairwise_cons] at hpw
  have := hpw.1 _ (List.mem_singleton.2 rfl)
  exact this rfl

/-- C1 amended: on the primary semantic path the dedup invariant holds —
no two returned entries share a `(file_name, page_num)` key — and the
kept entry of each page scores at least as high as every filter-passing
chunk of that page (only the highest-`final`-scoring chunk survives).
The lexical keyword fallback path does not deduplicate
(see the counterexample). -/
theorem c1_semantic_dedup (query : List Char) (hits : List (Hit × ℚ))
    (ms : ℚ) (fnf : Option String) (topK : Nat) :
    (semanticSearchResults query hits ms fnf topK).Pairwise keyNe ∧
    (∀ hd ∈ hits, ¬ (similarityOf hd.2 < ms) →
      (hd.1.fileName, hd.1.pageNum) ∈
        (processHits (pyStrip (toLowerL query)) ms hits []).map entryKey ∧
      ∀ e ∈ processHits (pyStrip (toLowerL query)) ms hits [],
        entryKey e = (hd.1.fileName, hd.1.pageNum) →
        finalScoreOf (pyStrip (toLowerL query)) (toLowerL hd.1.content) hd.2 ≤
          e.score) := by
  constructor
  · unfold semanticSearchResults
    have h1 : (processHits (pyStrip (toLowerL query)) ms hits []).Pairwise keyNe :=
      processHits_pairwise _ ms hits [] (List.Pairwise.nil)
    have h2 := pairwise_fileBoost fnf _ h1
    have h3 : (sortBy scoreDescLe
        (fileBoost fnf (processHits (pyStrip (toLowerL query)) ms hits []))).Pairwise
          keyNe :=
      ((sortBy_perm scoreDescLe _).pairwise_iff (fun h => keyNe_symm h)).2 h2
    exact h3.sublist (List.take_sublist _ _)
  · intro hd hmem hms
    exact processHits_scores _ ms hits [] List.Pairwise.nil hd hmem hms

/-- Sample stored hit used to instantiate the semantic-path theorems. -/
def sampleHit : Hit :=
  { content := ("foo x".toList), fileName := ("f.pdf"), pageNum := 1 }

/-- C1 witness: instantiation of the amended theorem on a one-hit store
at distance 0. -/
theorem c1_witness :
    (semanticSearchResults (("foo".toList)) [(sampleHit, 0)] 0 none
      10).Pairwise keyNe ∧
    (sampleHit.fileName, sampleHit.pageNum) ∈
      (processHits (pyStrip (toLowerL ("foo".toList))) 0
        [(sampleHit, 0)] []).map entryKey := by
  have h := c1_semantic_dedup (("foo".toList)) [(sampleHit, 0)] 0 none 10
  refine ⟨h.1, ?_⟩
  have h2 := h.2 (sampleHit, 0) (List.mem_singleton.2 rfl) ?_
  · exact h2.1
  · show ¬ (similarityOf 0 < 0)
    norm_num [similarityOf, pyMax, pyMin]

/-! ## Claim C3: what min_score is compared against -/

theorem processHits_semantic (qL : List Char) (ms : ℚ) :
    ∀ (hits : List (Hit × ℚ)) (acc : List REntry),
      (∀ x ∈ acc, ms ≤ x.semantic) →
      ∀ x ∈ processHits qL ms hits acc, ms ≤ x.semantic := by
  intro hits
  induction hits with
  | nil => intro acc hacc x hx; exact hacc x hx
  | cons hd rest ih =>
      intro acc hacc x hx
      obtain ⟨h, d⟩ := hd
      simp only [processHits] at hx
      by_cases hflt : similarityOf d < ms
      · rw [if_pos hflt] at hx
        exact ih acc hacc x hx
      · rw [if_neg hflt] at hx
        refine ih _ ?_ x hx
        intro y hy
        rcases mem_upsertBest acc _ y hy with rfl | hy2
        · exact le_of_not_lt hflt
        · exact hacc y hy2

theorem fileBoost_semantic (fnf : Option String) (es : List REntry)
    (ms : ℚ) (hes : ∀ x ∈ es, ms ≤ x.semantic) :
    ∀ x ∈ fileBoost fnf es, ms ≤ x.semantic := by
  intro x hx
  cases fnf with
  | none => exact hes x hx
  | some fn =>
      rw [fileBoost] at hx
      rcases List.mem_map.1 hx with ⟨y, hy, hxy⟩
      subst hxy
      by_cases h : y.fileName = fn
      · simp only [if_pos h]
        exact hes y hy
      · simp only [if_neg h]
        exact hes y hy

theorem keywordBoost_full (qL cl : List Char) (h : pyIn qL cl = true) :
    keywordBoost qL cl =
      pyMin 0.6 (0.4 + ((countOccs qL cl : ℚ) - 1) * 0.1) +
      ((matchedTokens qL cl).map (tokenTermQ cl)).sum +
      (if 1 ≤ (matchedTokens qL cl).length then (0.15 : ℚ) else 0) := by
  unfold keywordBoost
  rw [h]
  simp only [if_true]
  rw [if_neg (by omega : ¬ (1 + (matchedTokens qL cl).length = 0))]
  congr 1
  by_cases hl : 1 ≤ (matchedTokens qL cl).length
  · rw [if_pos (by omega), if_pos hl]
  · rw [if_neg (by omega), if_neg hl]

theorem keywordBoost_nofull (qL cl : List Char) (h : pyIn qL cl = false) :
    keywordBoost qL cl =
      if (matchedTokens qL cl).length = 0 then -(0.1 : ℚ)
      else ((matchedTokens qL cl).map (tokenTermQ cl)).sum +
        (if 2 ≤ (matchedTokens qL cl).length then (0.15 : ℚ) else 0) := by
  unfold keywordBoost
  rw [h]
  simp only [Bool.false_eq_true, if_false, Nat.zero_add, zero_add]

/-- C3 counterexample: with `min_score = 1/2`, a chunk whose semantic
similarity is `1/5` but whose final combined score is `3/5 ≥ 1/2` is
discarded anyway: the threshold is compared against the semantic
similarity before the lexical boost, not against the final score the
claim names. -/
theorem c3_counterexample :
    semanticSearchResults (("foo".toList))
      [({ content := ("foo bar baz".toList), fileName := ("f.pdf"),
          pageNum := 1 }, 8/5)] (1/2) none 10 = [] ∧
    (1:ℚ)/2 ≤ finalScoreOf (pyStrip (toLowerL ("foo".toList)))
      (toLowerL ("foo bar baz".toList)) (8/5) := by
  constructor
  · have hsim : similarityOf (8/5) < (1:ℚ)/2 := by
      norm_num [similarityOf, pyMax, pyMin]
    unfold semanticSearchResults
    simp only [processHits, hsim, if_pos, fileBoost, sortBy, List.take]
  · have hq : pyStrip (toLowerL ("foo".toList)) = ("foo".toList) := by decide
    rw [hq]
    have hin : pyIn (("foo".toList)) (toLowerL ("foo bar baz".toList)) = true := by
      decide
    have hcnt : countOccs (("foo".toList)) (toLowerL ("foo bar baz".toList)) = 1 := by
      decide
    have hmts : matchedTokens (("foo".toList)) (toLowerL ("foo bar baz".toList)) = [] := by
      decide
    rw [finalScoreOf, keywordBoost_full _ _ hin, hmts, hcnt]
    norm_num [similarityOf, pyMax, pyMin]

/-- C3 amended: `min_score` is applied to the semantic similarity before
the lexical boost is added: every returned result has semantic similarity
at least `min_score`, and every raw hit whose semantic similarity reaches
`min_score` makes it into the deduplication map (its page key is present
before the final sort/truncation). -/
theorem c3_min_score_on_semantic (query : List Char) (hits : List (Hit × ℚ))
    (ms : ℚ) (fnf : Option String) (topK : Nat) :
    (∀ r ∈ semanticSearchResults query hits ms fnf topK, ms ≤ r.semantic) ∧
    (∀ hd ∈ hits, ¬ (similarityOf hd.2 < ms) →
      (hd.1.fileName, hd.1.pageNum) ∈
        (processHits (pyStrip (toLowerL query)) ms hits []).map entryKey) := by
  constructor
  · intro r hr
    unfold semanticSearchResults at hr
    have hr2 := mem_sortBy (List.mem_of_mem_take hr)
    refine fileBoost_semantic fnf _ ms ?_ r hr2
    exact processHits_semantic _ ms hits [] (by intro x hx; simp at hx)
  · intro hd hmem hms
    exact (processHits_scores _ ms hits [] List.Pairwise.nil hd hmem hms).1

/-- C3 witness: instantiation of the amended theorem on a one-hit store
at distance 0 with `min_score = 0`. -/
theorem c3_witness :
    (∀ r ∈ semanticSearchResults (("foo".toList)) [(sampleHit, 0)] 0 none 10,
      (0:ℚ) ≤ r.semantic) ∧
    (sampleHit.fileName, sampleHit.pageNum) ∈
      (processHits (pyStrip (toLowerL ("foo".toList))) 0
        [(sampleHit, 0)] []).map entryKey := by
  have h := c3_min_score_on_semantic (("foo".toList)) [(sampleHit, 0)] 0 none 10
  refine ⟨h.1, ?_⟩
  refine h.2 (sampleHit, 0) (List.mem_singleton.2 rfl) ?_
  show ¬ (similarityOf 0 < 0)
  norm_num [similarityOf, pyMax, pyMin]

/-! ## Claim C2: lexical-match score monotonicity -/

theorem sum_map_le (l : List (List Char)) (f : List Char → ℚ) (c : ℚ)
    (h : ∀ x ∈ l, f x ≤ c) : (l.map f).sum ≤ c * l.length := by
  induction l with
  | nil => simp
  | cons x t ih =>
      simp only [List.map_cons, List.sum_cons, List.length_cons]
      have h1 := h x (List.mem_cons_self x t)
      have h2 := ih (fun y hy => h y (List.mem_cons_of_mem x hy))
      push_cast
      linarith

theorem le_sum_map (l : List (List Char)) (f : List Char → ℚ) (c : ℚ)
    (h : ∀ x ∈ l, c ≤ f x) : c * l.length ≤ (l.map f).sum := by
  induction l with
  | nil => simp
  | cons x t ih =>
      simp only [List.map_cons, List.sum_cons, List.length_cons]
      have h1 := h x (List.mem_cons_self x t)
      have h2 := ih (fun y hy => h y (List.mem_cons_of_mem x hy))
      push_cast
      linarith

theorem tokenTermQ_le (cl kw : List Char) : tokenTermQ cl kw ≤ 0.3 := by
  unfold tokenTermQ pyMin
  by_cases h : (0.3:ℚ) ≤ 0.2 + ((countOccs kw cl : ℚ) - 1) * 0.05
  · rw [if_pos h]
  · rw [if_neg h]
    linarith [not_le.1 h]

theorem tokenTermQ_ge (cl kw : List Char) (h : 0 < countOccs kw cl) :
    (0.2:ℚ) ≤ tokenTermQ cl kw := by
  unfold tokenTermQ pyMin
  have h1 : (1:ℚ) ≤ (countOccs kw cl : ℚ) := by exact_mod_cast h
  have h2 : (0:ℚ) ≤ ((countOccs kw cl : ℚ) - 1) * 0.05 :=
    mul_nonneg (by linarith) (by norm_num)
  by_cases hc : (0.3:ℚ) ≤ 0.2 + ((countOccs kw cl : ℚ) - 1) * 0.05
  · rw [if_pos hc]; norm_num
  · rw [if_neg hc]; linarith

theorem fullPart_ge (qL cl : List Char) (h : 0 < countOccs qL cl) :
    (0.4:ℚ) ≤ pyMin 0.6 (0.4 + ((countOccs qL cl : ℚ) - 1) * 0.1) := by
  unfold pyMin
  have h1 : (1:ℚ) ≤ (countOccs qL cl : ℚ) := by exact_mod_cast h
  have h2 : (0:ℚ) ≤ ((countOccs qL cl : ℚ) - 1) * 0.1 :=
    mul_nonneg (by linarith) (by norm_num)
  by_cases hc : (0.6:ℚ) ≤ 0.4 + ((countOccs qL cl : ℚ) - 1) * 0.1
  · rw [if_pos hc]; norm_num
  · rw [if_neg hc]; linarith

theorem similarityOf_nonneg (d : ℚ) : 0 ≤ similarityOf d := by
  unfold similarityOf pyMax
  by_cases h : (0:ℚ) ≤ pyMin 1 (1 - d / 2)
  · rw [if_pos h]; exact h
  · rw [if_neg h]

theorem similarityOf_le_one (d : ℚ) : similarityOf d ≤ 1 := by
  unfold similarityOf pyMax pyMin
  by_cases h1 : (1:ℚ) ≤ 1 - d / 2
  · rw [if_pos h1]
    by_cases h2 : (0:ℚ) ≤ (1:ℚ)
    · rw [if_pos h2]
    · rw [if_neg h2]; norm_num
  · rw [if_neg h1]
    by_cases h2 : (0:ℚ) ≤ 1 - d / 2
    · rw [if_pos h2]; linarith [not_le.1 h1]
    · rw [if_neg h2]; norm_num

/-- Every relevant token occurs in any text that contains the full
query: tokens come from splitting the query, so they are substrings of
it, hence of the containing text. -/
theorem matchedTokens_all (qL aL : List Char) (hA : pyIn qL aL = true) :
    matchedTokens qL aL = relTokens qL := by
  unfold matchedTokens
  rw [List.filter_eq_self]
  intro kw hkw
  have hkw2 : kw ∈ pySplitWs qL := by
    have hmf := List.mem_filter.1 hkw
    exact List.mem_dedup.1 hmf.1
  rcases mem_pySplitWs_exists qL kw hkw2 with ⟨u, v, hq⟩
  rcases (pyIn_iff_exists qL aL).1 hA with ⟨s, t, ha⟩
  have hdecomp : aL = (s ++ u) ++ kw ++ (v ++ t) := by
    rw [ha, hq]
    simp [List.append_assoc]
  have hpos : 0 < countOccs kw aL :=
    countOccs_pos_of_exists kw aL ⟨s ++ u, v ++ t, hdecomp⟩
  exact decide_eq_true hpos

theorem keywordBoost_lower (qL aL : List Char) (hA : pyIn qL aL = true) :
    0.4 + 0.2 * ((relTokens qL).length : ℚ) +
      (if 1 ≤ (relTokens qL).length then (0.15:ℚ) else 0) ≤
      keywordBoost qL aL := by
  have hall := matchedTokens_all qL aL hA
  rw [keywordBoost_full qL aL hA, hall]
  have h1 : (0.4:ℚ) ≤ pyMin 0.6 (0.4 + ((countOccs qL aL : ℚ) - 1) * 0.1) :=
    fullPart_ge qL aL (countOccs_pos_of_pyIn qL aL hA)
  have h2 : 0.2 * ((relTokens qL).length : ℚ) ≤
      ((relTokens qL).map (tokenTermQ aL)).sum := by
    apply le_sum_map
    intro kw hkw
    apply tokenTermQ_ge
    have hmem : kw ∈ matchedTokens qL aL := hall ▸ hkw
    have hmf := List.mem_filter.1 hmem
    simpa using hmf.2
  linarith

theorem keywordBoost_upper_b (qL bL : List Char) (hB : pyIn qL bL = false)
    (hm : ¬ ((matchedTokens qL bL).length = 0)) :
    keywordBoost qL bL ≤ 0.3 * ((matchedTokens qL bL).length : ℚ) + 0.15 := by
  rw [keywordBoost_nofull qL bL hB, if_neg hm]
  have h1 : ((matchedTokens qL bL).map (tokenTermQ bL)).sum ≤
      0.3 * ((matchedTokens qL bL).length : ℚ) :=
    sum_map_le _ _ _ (fun kw _ => tokenTermQ_le bL kw)
  have h2 : (if 2 ≤ (matchedTokens qL bL).length then (0.15:ℚ) else 0) ≤ 0.15 := by
    by_cases h : 2 ≤ (matchedTokens qL bL).length
    · rw [if_pos h]
    · rw [if_neg h]; norm_num
  linarith

/-- Core of Claim C2: for identical semantic distance, a chunk containing
the literal query never scores below one that does not, and scores
strictly higher whenever the containing chunk's final score is not
clamped at 1. -/
theorem finalScore_query_mono (qL aL bL : List Char) (d : ℚ)
    (hA : pyIn qL aL = true) (hB : pyIn qL bL = false) :
    finalScoreOf qL bL d ≤ finalScoreOf qL aL d ∧
    (finalScoreOf qL aL d < 1 →
      finalScoreOf qL bL d < finalScoreOf qL aL d) := by
  have hsim0 : 0 ≤ similarityOf d := similarityOf_nonneg d
  have hsim1 : similarityOf d ≤ 1 := similarityOf_le_one d
  have hlow := keywordBoost_lower qL aL hA
  have hbonus0 : (0:ℚ) ≤ (if 1 ≤ (relTokens qL).length then (0.15:ℚ) else 0) := by
    by_cases h : 1 ≤ (relTokens qL).length
    · rw [if_pos h]; norm_num
    · rw [if_neg h]
  have hcast0 : (0:ℚ) ≤ ((relTokens qL).length : ℚ) := Nat.cast_nonneg _
  have htok0 : (0:ℚ) ≤ 0.2 * ((relTokens qL).length : ℚ) := by positivity
  have hA04 : (0.4:ℚ) ≤ keywordBoost qL aL := by linarith
  have hmn : (matchedTokens qL bL).length ≤ (relTokens qL).length :=
    List.length_filter_le _ _
  have hmono : ∀ x y : ℚ, x ≤ y →
      pyMax 0 (pyMin 1 x) ≤ pyMax 0 (pyMin 1 y) := by
    intro x y h
    rw [pyMax_eq_max, pyMax_eq_max, pyMin_eq_min, pyMin_eq_min]
    exact max_le_max le_rfl (min_le_min le_rfl h)
  have hle1 : ∀ x : ℚ, pyMax 0 (pyMin 1 x) ≤ 1 := by
    intro x
    rw [pyMax_eq_max, pyMin_eq_min]
    exact max_le (by norm_num) (min_le_left _ _)
  have hfArfl : finalScoreOf qL aL d =
      pyMax 0 (pyMin 1 (similarityOf d + keywordBoost qL aL)) := rfl
  have hfBrfl : finalScoreOf qL bL d =
      pyMax 0 (pyMin 1 (similarityOf d + keywordBoost qL bL)) := rfl
  have hsumA_of : finalScoreOf qL aL d < 1 →
      similarityOf d + keywordBoost qL aL < 1 := by
    intro hlt
    by_contra hge
    push_neg at hge
    rw [hfArfl, pyMin_eq_min, pyMax_eq_max, min_eq_left hge,
      max_eq_right (by norm_num : (0:ℚ) ≤ 1)] at hlt
    exact lt_irrefl 1 hlt
  have hstrict : ∀ (x : ℚ), x < keywordBoost qL aL →
      finalScoreOf qL aL d < 1 →
      pyMax 0 (pyMin 1 (similarityOf d + x)) < finalScoreOf qL aL d := by
    intro x hx hlt
    have hsum1 := hsumA_of hlt
    have hfa : finalScoreOf qL aL d =
        similarityOf d + keywordBoost qL aL := by
      rw [hfArfl, pyMin_eq_min, pyMax_eq_max,
        min_eq_right (le_of_lt hsum1)]
      exact max_eq_right (by linarith)
    rw [hfa, pyMax_eq_max, pyMin_eq_min]
    apply max_lt
    · linarith
    · exact lt_of_le_of_lt (min_le_right _ _) (by linarith)
  by_cases hzero : (matchedTokens qL bL).length = 0
  · have hBB : keywordBoost qL bL = -0.1 := by
      rw [keywordBoost_nofull qL bL hB, if_pos hzero]
    constructor
    · rw [hfArfl, hfBrfl]
      apply hmono
      rw [hBB]
      linarith
    · intro hlt
      rw [hfBrfl, hBB]
      exact hstrict _ (by linarith) hlt
  · have hm1 : 1 ≤ (matchedTokens qL bL).length :=
      Nat.one_le_iff_ne_zero.2 hzero
    have hn1 : 1 ≤ (relTokens qL).length := le_trans hm1 hmn
    have hbonusA : (if 1 ≤ (relTokens qL).length then (0.15:ℚ) else 0) = 0.15 :=
      if_pos hn1
    rw [hbonusA] at hlow
    have hup := keywordBoost_upper_b qL bL hB hzero
    have hcastmn : ((matchedTokens qL bL).length : ℚ) ≤
        ((relTokens qL).length : ℚ) := by exact_mod_cast hmn
    constructor
    · by_cases hord : keywordBoost qL bL ≤ keywordBoost qL aL
      · rw [hfArfl, hfBrfl]
        exact hmono _ _ (by linarith)
      · push_neg at hord
        have h5 : (4:ℚ) < ((relTokens qL).length : ℚ) := by linarith
        have h5n : 5 ≤ (relTokens qL).length := by
          have h4 : 4 < (relTokens qL).length := by exact_mod_cast h5
          omega
        have h5c : (5:ℚ) ≤ ((relTokens qL).length : ℚ) := by exact_mod_cast h5n
        have hfa1 : finalScoreOf qL aL d = 1 := by
          rw [hfArfl, pyMin_eq_min, pyMax_eq_max,
            min_eq_left (by linarith),
            max_eq_right (by norm_num : (0:ℚ) ≤ 1)]
        rw [hfa1, hfBrfl]
        exact hle1 _
    · intro hlt
      have hsum1 := hsumA_of hlt
      have hbA1 : keywordBoost qL aL < 1 := by linarith
      have hbb_lt : keywordBoost qL bL < keywordBoost qL aL := by linarith
      rw [hfBrfl]
      exact hstrict _ hbb_lt hlt

/-- C2 amended: for two chunks at identical semantic distance where only
the first contains the literal (lower-cased, stripped) query string, the
first's final score is always at least the second's, and is strictly
higher whenever the first's final score is below the 1.0 clamp.  (At the
clamp the two can tie — see the counterexample.) -/
theorem c2_contains_query_ranks_higher (query a b : List Char) (d : ℚ)
    (hA : pyIn (pyStrip (toLowerL query)) (toLowerL a) = true)
    (hB : pyIn (pyStrip (toLowerL query)) (toLowerL b) = false) :
    finalScoreOf (pyStrip (toLowerL query)) (toLowerL b) d ≤
      finalScoreOf (pyStrip (toLowerL query)) (toLowerL a) d ∧
    (finalScoreOf (pyStrip (toLowerL query)) (toLowerL a) d < 1 →
      finalScoreOf (pyStrip (toLowerL query)) (toLowerL b) d <
        finalScoreOf (pyStrip (toLowerL query)) (toLowerL a) d) :=
  finalScore_query_mono (pyStrip (toLowerL query)) (toLowerL a)
    (toLowerL b) d hA hB

/-- C2 counterexample: at distance 0 the query `"ab cd"` gives the chunk
`"ab cd"` (which contains the literal query) and the chunk `"ab x cd"`
(which does not, but matches both tokens) the same final score 1: the
claimed strict inequality fails once the 1.0 clamp is reached. -/
theorem c2_counterexample :
    pyIn (pyStrip (toLowerL ("ab cd".toList))) (toLowerL ("ab cd".toList)) =
      true ∧
    pyIn (pyStrip (toLowerL ("ab cd".toList))) (toLowerL ("ab x cd".toList)) =
      false ∧
    finalScoreOf (pyStrip (toLowerL ("ab cd".toList)))
        (toLowerL ("ab cd".toList)) 0 =
      finalScoreOf (pyStrip (toLowerL ("ab cd".toList)))
        (toLowerL ("ab x cd".toList)) 0 := by
  refine ⟨by decide, by decide, ?_⟩
  have hq : pyStrip (toLowerL ("ab cd".toList)) = ("ab cd".toList) := by decide
  rw [hq]
  have ha : toLowerL ("ab cd".toList) = ("ab cd".toList) := by decide
  have hb : toLowerL ("ab x cd".toList) = ("ab x cd".toList) := by decide
  rw [ha, hb]
  have hinA : pyIn ("ab cd".toList) ("ab cd".toList) = true := by decide
  have hinB : pyIn ("ab cd".toList) ("ab x cd".toList) = false := by decide
  have hcntA : countOccs ("ab cd".toList) ("ab cd".toList) = 1 := by decide
  have hmtsA : matchedTokens ("ab cd".toList) ("ab cd".toList) =
      [("ab".toList), ("cd".toList)] := by decide
  have hmtsB : matchedTokens ("ab cd".toList) ("ab x cd".toList) =
      [("ab".toList), ("cd".toList)] := by decide
  have hc1 : countOccs ("ab".toList) ("ab cd".toList) = 1 := by decide
  have hc2 : countOccs ("cd".toList) ("ab cd".toList) = 1 := by decide
  have hc3 : countOccs ("ab".toList) ("ab x cd".toList) = 1 := by decide
  have hc4 : countOccs ("cd".toList) ("ab x cd".toList) = 1 := by decide
  have hbA : keywordBoost ("ab cd".toList) ("ab cd".toList) = 0.95 := by
    rw [keywordBoost_full _ _ hinA, hmtsA]
    simp only [List.map_cons, List.map_nil, List.sum_cons, List.sum_nil,
      tokenTermQ, hcntA, hc1, hc2, List.length_cons, List.length_nil]
    norm_num [pyMin]
  have hbB : keywordBoost ("ab cd".toList) ("ab x cd".toList) = 0.55 := by
    rw [keywordBoost_nofull _ _ hinB, hmtsB]
    simp only [List.map_cons, List.map_nil, List.sum_cons, List.sum_nil,
      tokenTermQ, hc3, hc4, List.length_cons, List.length_nil]
    norm_num [pyMin]
  rw [finalScoreOf, finalScoreOf, hbA, hbB]
  norm_num [similarityOf, pyMax, pyMin]

/-- C2 witness: instantiation of the amended theorem for the query
`"ab"` against the containing chunk `"ab"` and the unrelated chunk
`"xy"` at distance 1. -/
theorem c2_witness :
    finalScoreOf (pyStrip (toLowerL ("ab".toList))) (toLowerL ("xy".toList)) 1 ≤
      finalScoreOf (pyStrip (toLowerL ("ab".toList))) (toLowerL ("ab".toList)) 1 ∧
    (finalScoreOf (pyStrip (toLowerL ("ab".toList))) (toLowerL ("ab".toList)) 1 < 1 →
      finalScoreOf (pyStrip (toLowerL ("ab".toList))) (toLowerL ("xy".toList)) 1 <
        finalScoreOf (pyStrip (toLowerL ("ab".toList))) (toLowerL ("ab".toList)) 1) :=
  c2_contains_query_ranks_higher ("ab".toList) ("ab".toList) ("xy".toList) 1
    (by decide) (by decide)

/-! ## Claim C4: chunk size bound and line-order reconstruction -/

theorem splitLinesPy_ne_nil : ∀ (s : List Char), splitLinesPy s ≠ [] := by
  intro s
  cases s with
  | nil => simp [splitLinesPy]
  | cons c t =>
      rw [splitLinesPy]
      by_cases h : c = '\n'
      · rw [if_pos h]; simp
      · rw [if_neg h]
        cases hst : splitLinesPy t with
        | nil => simp
        | cons a r => simp

theorem intercalateNl_splitLinesPy : ∀ (s : List Char),
    intercalateNl (splitLinesPy s) = s := by
  intro s
  induction s with
  | nil => rfl
  | cons c t ih =>
      rw [splitLinesPy]
      by_cases h : c = '\n'
      · rw [if_pos h]
        cases hst : splitLinesPy t with
        | nil => exact absurd hst (splitLinesPy_ne_nil t)
        | cons a r =>
            rw [hst] at ih
            show intercalateNl ([] :: a :: r) = c :: t
            rw [intercalateNl]
            simp [h, ih]
      · rw [if_neg h]
        cases hst : splitLinesPy t with
        | nil => exact absurd hst (splitLinesPy_ne_nil t)
        | cons a r =>
            rw [hst] at ih
            cases r with
            | nil =>
                show intercalateNl [c :: a] = c :: t
                have ha : a = t := by simpa [intercalateNl] using ih
                simp [intercalateNl, ha]
            | cons r0 rt =>
                show intercalateNl ((c :: a) :: r0 :: rt) = c :: t
                rw [intercalateNl] at ih ⊢
                simp only [List.cons_append]
                rw [ih]

theorem intercalateNl_append : ∀ (a b : List (List Char)), a ≠ [] → b ≠ [] →
    intercalateNl (a ++ b) = intercalateNl a ++ '\n' :: intercalateNl b := by
  intro a
  induction a with
  | nil => intro b h _; exact absurd rfl h
  | cons x xs ih =>
      intro b _ hb
      cases xs with
      | nil =>
          cases b with
          | nil => exact absurd rfl hb
          | cons b0 bt =>
              show intercalateNl (x :: b0 :: bt) =
                intercalateNl [x] ++ '\n' :: intercalateNl (b0 :: bt)
              rw [intercalateNl]
              simp [intercalateNl]
      | cons x2 xt =>
          show intercalateNl (x :: (x2 :: (xt ++ b))) =
            intercalateNl (x :: x2 :: xt) ++ '\n' :: intercalateNl b
          rw [intercalateNl, intercalateNl, ← List.cons_append,
            ih b (by simp) hb]
          simp [List.append_assoc]

theorem greedyGo_ne_nil (mc : Nat) : ∀ (ls cur : List (List Char)) (len : Nat),
    cur ≠ [] → greedyGo mc ls cur len ≠ [] := by
  intro ls
  induction ls with
  | nil =>
      intro cur len hc
      rw [greedyGo, if_neg hc]
      simp
  | cons l rest ih =>
      intro cur len hc
      simp only [greedyGo]
      split
      · simp
      · exact ih _ _ (by simp)

theorem greedyGo_join (mc : Nat) : ∀ (ls cur : List (List Char)) (len : Nat),
    cur ≠ [] →
    intercalateNl (greedyGo mc ls cur len) = intercalateNl (cur ++ ls) := by
  intro ls
  induction ls with
  | nil =>
      intro cur len hc
      rw [greedyGo, if_neg hc]
      simp [intercalateNl]
  | cons l rest ih =>
      intro cur len hc
      simp only [greedyGo]
      split
      · cases hG : greedyGo mc rest [l] (l.length + 1) with
        | nil => exact absurd hG (greedyGo_ne_nil mc rest [l] _ (by simp))
        | cons g0 gt =>
            rw [intercalateNl]
            have hih := ih [l] (l.length + 1) (by simp)
            rw [hG] at hih
            rw [hih]
            rw [intercalateNl_append cur (l :: rest) hc (by simp)]
            simp
      · rw [ih (cur ++ [l]) _ (by simp)]
        simp [List.append_assoc]

theorem greedy_top (mc : Nat) (text : List Char) :
    intercalateNl (greedyGo mc (splitLinesPy text) [] 0) = text := by
  cases hl : splitLinesPy text with
  | nil => exact absurd hl (splitLinesPy_ne_nil text)
  | cons l rest =>
      simp only [greedyGo]
      rw [if_neg (by simp)]
      simp only [List.nil_append]
      rw [greedyGo_join mc rest [l] _ (by simp)]
      have h2 := intercalateNl_splitLinesPy text
      rw [hl] at h2
      simpa using h2

theorem batchesOf_ne_nil {α : Type} (n : Nat) (l : List α) (hl : l ≠ []) :
    batchesOf n l ≠ [] := by
  cases l with
  | nil => exact absurd rfl hl
  | cons x t => rw [batchesOf]; simp

theorem joinWithSeps_replicate : ∀ (g : List (List Char)),
    joinWithSeps g (List.replicate (g.length - 1) []) = g.flatten := by
  intro g
  induction g with
  | nil => rfl
  | cons c g' ih =>
      cases g' with
      | nil => simp [joinWithSeps]
      | cons c2 g'' =>
          have hrep : List.replicate ((c :: c2 :: g'').length - 1)
              ([] : List Char) =
              [] :: List.replicate ((c2 :: g'').length - 1) [] := by
            simp [List.replicate_succ]
          rw [hrep]
          show c ++ [] ++ joinWithSeps (c2 :: g'')
            (List.replicate ((c2 :: g'').length - 1) []) = (c :: c2 :: g'').flatten
          rw [ih]
          simp

theorem joinWithSeps_group : ∀ (g rest : List (List Char)) (s0 : List Char)
    (seps : List (List Char)), g ≠ [] → rest ≠ [] →
    joinWithSeps (g ++ rest)
      (List.replicate (g.length - 1) [] ++ s0 :: seps) =
      g.flatten ++ s0 ++ joinWithSeps rest seps := by
  intro g
  induction g with
  | nil => intro rest s0 seps hg _; exact absurd rfl hg
  | cons c g' ih =>
      intro rest s0 seps _ hrest
      cases g' with
      | nil =>
          cases rest with
          | nil => exact absurd rfl hrest
          | cons r0 rt =>
              show joinWithSeps (c :: r0 :: rt) ([] ++ s0 :: seps) =
                [c].flatten ++ s0 ++ joinWithSeps (r0 :: rt) seps
              simp only [List.nil_append, joinWithSeps]
              simp [List.append_assoc]
      | cons c2 g'' =>
          have hrep : List.replicate ((c :: c2 :: g'').length - 1)
              ([] : List Char) =
              [] :: List.replicate ((c2 :: g'').length - 1) [] := by
            simp [List.replicate_succ]
          rw [hrep]
          show joinWithSeps (c :: ((c2 :: g'') ++ rest))
              ([] :: (List.replicate ((c2 :: g'').length - 1) [] ++ s0 :: seps)) =
            (c :: c2 :: g'').flatten ++ s0 ++ joinWithSeps rest seps
          simp only [joinWithSeps, List.append_eq]
          rw [← List.cons_append, ih rest s0 seps (by simp) hrest]
          simp [List.append_assoc]

theorem mem_mkSeps : ∀ (gs : List (List (List Char))) (s : List Char),
    s ∈ mkSeps gs → s = [] ∨ s = ['\n'] := by
  intro gs
  induction gs with
  | nil => intro s hs; simp [mkSeps] at hs
  | cons g gs' ih =>
      intro s hs
      cases gs' with
      | nil =>
          rw [mkSeps] at hs
          exact Or.inl (List.eq_of_mem_replicate hs)
      | cons g2 gs'' =>
          rw [mkSeps] at hs
          rcases List.mem_append.1 hs with hs | hs
          · exact Or.inl (List.eq_of_mem_replicate hs)
          · rcases List.mem_cons.1 hs with rfl | hs
            · exact Or.inr rfl
            · exact ih s hs

theorem joinWithSeps_mkSeps : ∀ (gs : List (List (List Char))),
    (∀ g ∈ gs, g ≠ []) →
    joinWithSeps gs.flatten (mkSeps gs) =
      intercalateNl (gs.map List.flatten) := by
  intro gs
  induction gs with
  | nil => intro _; rfl
  | cons g gs' ih =>
      intro hne
      cases gs' with
      | nil =>
          show joinWithSeps (g ++ []) (mkSeps [g]) =
            intercalateNl [g.flatten]
          rw [List.append_nil, mkSeps, joinWithSeps_replicate]
          rfl
      | cons g2 gs'' =>
          have hg : g ≠ [] := hne g (List.mem_cons_self _ _)
          have hg2 : g2 ≠ [] :=
            hne g2 (List.mem_cons_of_mem _ (List.mem_cons_self _ _))
          have hrest_ne : (g2 :: gs'').flatten ≠ [] := by
            cases g2 with
            | nil => exact absurd rfl hg2
            | cons x xs => simp
          show joinWithSeps (g ++ (g2 :: gs'').flatten)
              (mkSeps (g :: g2 :: gs'')) =
            intercalateNl ((g :: g2 :: gs'').map List.flatten)
          rw [mkSeps]
          rw [joinWithSeps_group g _ _ _ hg hrest_ne]
          rw [ih (fun x hx => hne x (List.mem_cons_of_mem _ hx))]
          show g.flatten ++ ['\n'] ++ intercalateNl ((g2 :: gs'').map List.flatten) =
            intercalateNl (g.flatten :: (g2 :: gs'').map List.flatten)
          rw [List.map_cons, intercalateNl]
          simp [List.append_assoc]

theorem flatMap_eq_flatten_map {α β : Type} (f : α → List β) (l : List α) :
    l.flatMap f = (l.map f).flatten := by
  induction l with
  | nil => rfl
  | cons x t ih => simp [ih]

/-- C4: with a positive token budget, every chunk produced by
`_split_text_for_embedding` is at most `max_tokens * 3` characters long,
and the chunks preserve the source page's line order: concatenating them
in order — reinserting a newline at each boundary where the greedy
packing removed one, and nothing at the hard-split boundaries inside an
oversized line — reconstructs the input text exactly, so no line is
dropped.  (Python raises on `max_tokens = 0`: `range` rejects step 0.) -/
theorem c4_chunking (text : List Char) (maxTokens : Nat)
    (h : 1 ≤ maxTokens) :
    (∀ c ∈ splitTextForEmbedding text maxTokens,
      c.length ≤ maxTokens * 3) ∧
    ∃ seps : List (List Char), (∀ s ∈ seps, s = [] ∨ s = ['\n']) ∧
      joinWithSeps (splitTextForEmbedding text maxTokens) seps = text := by
  have hmc : 1 ≤ maxTokens * 3 := by omega
  simp only [splitTextForEmbedding]
  by_cases htop : text.length ≤ maxTokens * 3
  · rw [if_pos htop]
    constructor
    · intro c hc
      rw [List.mem_singleton] at hc
      subst hc
      exact htop
    · exact ⟨[], by simp, rfl⟩
  · rw [if_neg htop]
    constructor
    · intro c hc
      rw [flatMap_eq_flatten_map] at hc
      rcases List.mem_flatten.1 hc with ⟨g, hg, hcg⟩
      rcases List.mem_map.1 hg with ⟨c0, hc0, rfl⟩
      by_cases hlen : maxTokens * 3 < c0.length
      · rw [if_pos hlen] at hcg
        exact length_mem_batchesOf (maxTokens * 3) c0.length c0 le_rfl c hcg
      · rw [if_neg hlen] at hcg
        rw [List.mem_singleton] at hcg
        subst hcg
        exact le_of_not_lt hlen
    · rw [flatMap_eq_flatten_map]
      refine ⟨mkSeps ((greedyGo (maxTokens * 3) (splitLinesPy text) [] 0).map
        (fun c => if maxTokens * 3 < c.length
          then batchesOf (maxTokens * 3) c else [c])), ?_, ?_⟩
      · intro s hs
        exact mem_mkSeps _ s hs
      · have hne : ∀ g ∈ (greedyGo (maxTokens * 3) (splitLinesPy text) [] 0).map
            (fun c => if maxTokens * 3 < c.length
              then batchesOf (maxTokens * 3) c else [c]), g ≠ [] := by
          intro g hg
          rcases List.mem_map.1 hg with ⟨c0, hc0, rfl⟩
          by_cases hlen : maxTokens * 3 < c0.length
          · rw [if_pos hlen]
            apply batchesOf_ne_nil
            intro hnil
            rw [hnil] at hlen
            simp at hlen
          · rw [if_neg hlen]
            simp
        rw [joinWithSeps_mkSeps _ hne]
        have hmapfl : (((greedyGo (maxTokens * 3) (splitLinesPy text) [] 0).map
            (fun c => if maxTokens * 3 < c.length
              then batchesOf (maxTokens * 3) c else [c])).map List.flatten) =
            greedyGo (maxTokens * 3) (splitLinesPy text) [] 0 := by
          rw [List.map_map]
          have hcongr : ∀ c0 ∈ greedyGo (maxTokens * 3) (splitLinesPy text) [] 0,
              (List.flatten ∘ (fun c => if maxTokens * 3 < c.length
                then batchesOf (maxTokens * 3) c else [c])) c0 = id c0 := by
            intro c0 _
            simp only [Function.comp_apply, id_eq]
            by_cases hlen : maxTokens * 3 < c0.length
            · rw [if_pos hlen]
              exact flatten_batchesOf _ hmc c0
            · rw [if_neg hlen]
              simp
          rw [List.map_congr_left hcongr, List.map_id]
        rw [hmapfl, greedy_top]

/-- C4 witness: instantiation at `max_tokens = 1` on a two-line text
longer than the 3-character budget. -/
theorem c4_witness :
    1 ≤ 1 ∧
    ((∀ c ∈ splitTextForEmbedding ("abcd\nef".toList) 1,
        c.length ≤ 1 * 3) ∧
     ∃ seps : List (List Char), (∀ s ∈ seps, s = [] ∨ s = ['\n']) ∧
       joinWithSeps (splitTextForEmbedding ("abcd\nef".toList) 1) seps =
         ("abcd\nef".toList)) :=
  ⟨le_rfl, c4_chunking ("abcd\nef".toList) 1 le_rfl⟩
